import Mathlib

/-!
Verification of the ADEKF core utilities (ADEKFUtils.h): the dual-number
derivator basis, the Jacobian extractor, the recursive reference-transform
Jacobian over (compound) manifolds, and the covariance regularizer.

Scalars are modelled by an arbitrary linear ordered field (the C++ code uses
double); dual numbers (ceres jets), the Eigen decompositions and the compound
manifold iteration are external to the single source file and are modelled
from the spec at their declared interface.
-/

namespace Adekf

open scoped Matrix

variable {K : Type} [LinearOrderedField K]

/-- Modelled from the spec: a dual number (a ceres jet) consisting of a scalar
value and a vector of derivative components.  The derivative vector is
indexed by naturals; the active dimension is tracked by the consumer. -/
structure Jet (K : Type) where
  a : K
  v : ℕ → K

/-- Addition of a plain scalar and a jet, as in ceres (scalar + Jet):
the scalar parts add, the derivative components pass through. -/
def addSJ (s : K) (j : Jet K) : Jet K := ⟨s + j.a, j.v⟩

/-- Subtraction of a plain scalar from a jet, as in ceres (Jet - scalar):
the scalar is subtracted, the derivative components pass through. -/
def subJS (j : Jet K) (s : K) : Jet K := ⟨j.a - s, j.v⟩

/-- Pointwise update of a function at one index; models an in-place write. -/
def updFn {A : Type} (f : ℕ → A) (i : ℕ) (x : A) : ℕ → A :=
  fun k => if k = i then x else f k

/-- The all-zero jet vector; models result.setZero() in getDerivator. -/
def zeroJets (K : Type) [LinearOrderedField K] : ℕ → Jet K := fun _ => ⟨0, fun _ => 0⟩

/-- getDerivator of ADEKFUtils.h: starting from the zero jet vector, the loop
sets the i-th derivative component of entry i to one, for i below Size. -/
def getDerivator (Size : ℕ) : ℕ → Jet K :=
  (List.range Size).foldl (fun r i => updFn r i ⟨(r i).a, updFn (r i).v i 1⟩) (zeroJets K)

/-- One unfolding step of the getDerivator loop. -/
theorem getDerivator_succ (n : ℕ) :
    getDerivator (K := K) (n + 1) =
      updFn (getDerivator (K := K) n) n
        ⟨((getDerivator (K := K) n) n).a, updFn ((getDerivator (K := K) n) n).v n 1⟩ := by
  simp only [getDerivator, List.range_succ, List.foldl_append, List.foldl_cons,
    List.foldl_nil]

/-- Every component of the derivator basis has scalar part zero. -/
theorem getDerivator_a (Size : ℕ) : ∀ i, (getDerivator (K := K) Size i).a = 0 := by
  induction Size with
  | zero => intro i; rfl
  | succ n ih =>
      intro i
      rw [getDerivator_succ]
      by_cases hi : i = n
      · subst hi; simp [updFn, ih i]
      · simp [updFn, hi, ih i]

/-- The derivative-component vector of entry i of the derivator basis is the
i-th standard basis vector, for i below Size. -/
theorem getDerivator_v (Size : ℕ) :
    ∀ i k, (getDerivator (K := K) Size i).v k = if i < Size ∧ k = i then 1 else 0 := by
  induction Size with
  | zero => intro i k; simp [getDerivator, zeroJets]
  | succ n ih =>
      intro i k
      rw [getDerivator_succ]
      by_cases hi : i = n
      · subst hi
        by_cases hk : k = i
        · subst hk
          simp [updFn, Nat.lt_succ_self]
        · simp [updFn, hk, ih i k]
      · have hlt : i < n + 1 ∧ k = i ↔ i < n ∧ k = i := by
          constructor
          · rintro ⟨h1, h2⟩
            exact ⟨lt_of_le_of_ne (Nat.lt_succ_iff.mp h1) hi, h2⟩
          · rintro ⟨h1, h2⟩
            exact ⟨Nat.lt_succ_of_lt h1, h2⟩
        simp [updFn, hi, ih i k, hlt]

/-- extractJacobi as an entrywise function: row j is the derivative-component
vector of the j-th jet of the input. -/
def extractJacobiFn (result : ℕ → Jet K) : ℕ → ℕ → K :=
  fun j r => (result j).v r

/-- extractJacobi of ADEKFUtils.h as an LDOF x RDOF matrix:
row j equals result(j).v. -/
def extractJacobi (L R : ℕ) (result : ℕ → Jet K) : Matrix (Fin L) (Fin R) K :=
  Matrix.of fun j r => (result (j : ℕ)).v (r : ℕ)

/-- dynamicMatrix of ADEKFUtils.h, with the configurable threshold taken as a
parameter: true when the entry count exceeds the threshold. -/
def dynamicMatrix (threshold n m : ℕ) : Bool := decide (n * m > threshold)

/-- Shape (rows, cols) carried by AutoMatrixType of ADEKFUtils.h: the dynamic
branch is sized n x m at run time by the constructor arguments, while the
fixed branch is the type Eigen::Matrix double n n, hence n x n. -/
def autoMatrixShape (threshold n m : ℕ) : ℕ × ℕ :=
  if dynamicMatrix threshold n m then (n, m) else (n, n)

mutual
/-- Modelled from the spec: a pair of instances (ref1, ref2) of one manifold
type.  An atomic manifold carries its tangent dimension, its boxplus
(point and jet tangent to jet point) and boxminus (jet point and point to jet
tangent) operators instantiated at dual numbers, and the two reference
points.  A compound manifold carries the ordered list of paired sub-manifolds
visited by forEachManifoldWithOther, followed by the tangent dimension of the
trailing plain-vector components that the iteration does not visit. -/
inductive MPair (K : Type) where
  | atomic (d : ℕ)
      (plusJ : (ℕ → K) → (ℕ → Jet K) → (ℕ → Jet K))
      (minusJ : (ℕ → Jet K) → (ℕ → K) → (ℕ → Jet K))
      (p1 p2 : ℕ → K)
  | compound (subs : MSubs K) (vecDof : ℕ)

/-- The ordered list of paired sub-manifolds of a compound manifold. -/
inductive MSubs (K : Type) where
  | nil
  | cons (head : MPair K) (tail : MSubs K)
end

mutual
/-- Degrees of freedom of a manifold pair (DOF of the manifold type). -/
def MPair.dof {K : Type} : MPair K → ℕ
  | .atomic d _ _ _ _ => d
  | .compound subs vecDof => MSubs.dofSum subs + vecDof

/-- Sum of the degrees of freedom of a list of sub-manifolds. -/
def MSubs.dofSum {K : Type} : MSubs K → ℕ
  | .nil => 0
  | .cons h t => MPair.dof h + MSubs.dofSum t
end

/-- The k-th sub-manifold of a compound, in declared order. -/
def MSubs.get? {K : Type} : MSubs K → ℕ → Option (MPair K)
  | .nil, _ => none
  | .cons h _, 0 => some h
  | .cons _ t, k + 1 => MSubs.get? t k

/-- Running tangent-space offset of the k-th sub-manifold: the sum of the
degrees of freedom of the sub-manifolds before it. -/
def MSubs.offset {K : Type} : MSubs K → ℕ → ℕ
  | .nil, _ => 0
  | .cons _ _, 0 => 0
  | .cons h t, k + 1 => MPair.dof h + MSubs.offset t k

/-- Writes the d x d block B at position (o, o) of D, leaving all other
entries unchanged; models D.block(o, o) = B. -/
def setBlock (D : ℕ → ℕ → K) (o d : ℕ) (B : ℕ → ℕ → K) : ℕ → ℕ → K :=
  fun i j =>
    if o ≤ i ∧ i < o + d ∧ o ≤ j ∧ j < o + d then B (i - o) (j - o) else D i j

/-- The identity matrix as an entrywise function; models D.Identity(DOF, DOF). -/
def idFun : ℕ → ℕ → K := fun i j => if i = j then 1 else 0

mutual
/-- transformReferenceJacobian(ref1, ref2, Er1) of ADEKFUtils.h.  Atomic case:
the Jacobian extracted from ref1 + (Er1 + getDerivator(DOF)) - ref2.
Compound case: starting from the identity, each visited sub-manifold pair
writes its recursively computed block at the running offset, with the error
slice Er1 shifted to the sub-manifold's offset. -/
def transformReferenceJacobian : MPair K → (ℕ → K) → ℕ → ℕ → K
  | .atomic d plusJ minusJ p1 p2, Er1 =>
      extractJacobiFn (minusJ (plusJ p1 (fun i => addSJ (Er1 i) (getDerivator d i))) p2)
  | .compound subs _, Er1 => fillBlocks subs Er1 0 idFun

/-- The iteration of calcManifoldJacobian over the sub-manifolds: writes each
sub-block at the running offset and advances the offset by the block size. -/
def fillBlocks : MSubs K → (ℕ → K) → ℕ → (ℕ → ℕ → K) → ℕ → ℕ → K
  | .nil, _, _, D => D
  | .cons s rest, Er1, o, D =>
      fillBlocks rest Er1 (o + MPair.dof s)
        (setBlock D o (MPair.dof s) (transformReferenceJacobian s (fun i => Er1 (o + i))))
end

mutual
/-- The two-argument overload transformReferenceJacobian(ref1, ref2):
identical recursive structure, with no error-vector slicing and the seed
being getDerivator alone. -/
def transformReferenceJacobianNE : MPair K → ℕ → ℕ → K
  | .atomic d plusJ minusJ p1 p2 =>
      extractJacobiFn (minusJ (plusJ p1 (fun i => getDerivator d i)) p2)
  | .compound subs _ => fillBlocksNE subs 0 idFun

/-- Iteration of the two-argument overload over the sub-manifolds. -/
def fillBlocksNE : MSubs K → ℕ → (ℕ → ℕ → K) → ℕ → ℕ → K
  | .nil, _, D => D
  | .cons s rest, o, D =>
      fillBlocksNE rest (o + MPair.dof s)
        (setBlock D o (MPair.dof s) (transformReferenceJacobianNE s))
end

/-- transformReferenceJacobian as a DOF x DOF matrix. -/
def transformRJMat (t : MPair K) (Er1 : ℕ → K) :
    Matrix (Fin (MPair.dof t)) (Fin (MPair.dof t)) K :=
  Matrix.of fun i j => transformReferenceJacobian t Er1 (i : ℕ) (j : ℕ)

/-- The two-argument transformReferenceJacobian as a DOF x DOF matrix. -/
def transformRJMatNE (t : MPair K) :
    Matrix (Fin (MPair.dof t)) (Fin (MPair.dof t)) K :=
  Matrix.of fun i j => transformReferenceJacobianNE t (i : ℕ) (j : ℕ)

/-- The one-dimensional scalar manifold of the end-to-end scenario, with
boxplus x + d and boxminus x - y, at reference points a and b. -/
def scalarPair (a b : K) : MPair K :=
  .atomic 1 (fun p dv => fun i => addSJ (p i) (dv i))
    (fun jp p => fun i => subJS (jp i) (p i))
    (fun _ => a) (fun _ => b)

/-- Adding the scalar zero to a jet returns the jet unchanged. -/
theorem addSJ_zero (j : Jet K) : addSJ 0 j = j := by
  cases j with
  | mk a v => simp [addSJ]

mutual
/-- The three-argument overload at the all-zero error vector coincides with
the two-argument overload. -/
theorem transformRJ_zero : ∀ t : MPair K,
    transformReferenceJacobian t (fun _ => 0) = transformReferenceJacobianNE t
  | .atomic d plusJ minusJ p1 p2 => by
      have hseed : (fun i => addSJ (0 : K) (getDerivator d i)) =
          fun i => getDerivator (K := K) d i := by
        funext i
        exact addSJ_zero _
      simp only [transformReferenceJacobian, transformReferenceJacobianNE, hseed]
  | .compound subs vecDof => by
      simp only [transformReferenceJacobian, transformReferenceJacobianNE]
      exact fillBlocks_zero subs 0 idFun

/-- The block-filling iteration at the all-zero error vector coincides with
the two-argument iteration. -/
theorem fillBlocks_zero : ∀ (subs : MSubs K) (o : ℕ) (D : ℕ → ℕ → K),
    fillBlocks subs (fun _ => 0) o D = fillBlocksNE subs o D
  | .nil, _, _ => by simp only [fillBlocks, fillBlocksNE]
  | .cons s rest, o, D => by
      simp only [fillBlocks, fillBlocksNE]
      rw [transformRJ_zero s]
      exact fillBlocks_zero rest (o + MPair.dof s) _
end

/-- Entries that never lie (as a row-column pair) inside one written block
are preserved by the block-filling iteration. -/
theorem fillBlocks_preserve : ∀ (subs : MSubs K) (Er1 : ℕ → K) (o : ℕ)
    (D : ℕ → ℕ → K) (i j : ℕ),
    (∀ k s, MSubs.get? subs k = some s →
      ¬(o + MSubs.offset subs k ≤ i ∧ i < o + MSubs.offset subs k + MPair.dof s ∧
        o + MSubs.offset subs k ≤ j ∧ j < o + MSubs.offset subs k + MPair.dof s)) →
    fillBlocks subs Er1 o D i j = D i j
  | .nil, _, _, _, _, _, _ => by simp only [fillBlocks]
  | .cons s rest, Er1, o, D, i, j, h => by
      have h0 := h 0 s rfl
      simp only [MSubs.offset, Nat.add_zero] at h0
      have hrest : ∀ k s', MSubs.get? rest k = some s' →
          ¬((o + MPair.dof s) + MSubs.offset rest k ≤ i ∧
            i < (o + MPair.dof s) + MSubs.offset rest k + MPair.dof s' ∧
            (o + MPair.dof s) + MSubs.offset rest k ≤ j ∧
            j < (o + MPair.dof s) + MSubs.offset rest k + MPair.dof s') := by
        intro k s' hk
        have := h (k + 1) s' hk
        simp only [MSubs.offset, MSubs.get?] at this ⊢
        omega
      simp only [fillBlocks]
      rw [fillBlocks_preserve rest Er1 (o + MPair.dof s) _ i j hrest]
      simp only [setBlock, if_neg h0]

/-- The diagonal block of the iteration at the k-th sub-manifold's offset
equals the recursively transformed Jacobian of that sub-manifold, taken at
the correspondingly shifted error slice. -/
theorem fillBlocks_block : ∀ (subs : MSubs K) (Er1 : ℕ → K) (o : ℕ)
    (D : ℕ → ℕ → K) (k : ℕ) (s : MPair K),
    MSubs.get? subs k = some s →
    ∀ i j, i < MPair.dof s → j < MPair.dof s →
    fillBlocks subs Er1 o D (o + MSubs.offset subs k + i) (o + MSubs.offset subs k + j) =
      transformReferenceJacobian s (fun m => Er1 (o + MSubs.offset subs k + m)) i j
  | .nil, _, _, _, k, s, hk, _, _, _, _ => by
      simp only [MSubs.get?] at hk
      exact Option.noConfusion hk
  | .cons hd rest, Er1, o, D, 0, s, hk, i, j, hi, hj => by
      have hs : hd = s := by
        simp only [MSubs.get?] at hk
        exact Option.some.inj hk
      subst hs
      simp only [MSubs.offset, Nat.add_zero, fillBlocks]
      have hpres : ∀ k' s', MSubs.get? rest k' = some s' →
          ¬((o + MPair.dof hd) + MSubs.offset rest k' ≤ o + i ∧
            o + i < (o + MPair.dof hd) + MSubs.offset rest k' + MPair.dof s' ∧
            (o + MPair.dof hd) + MSubs.offset rest k' ≤ o + j ∧
            o + j < (o + MPair.dof hd) + MSubs.offset rest k' + MPair.dof s') := by
        intro k' s' _
        omega
      rw [fillBlocks_preserve rest Er1 (o + MPair.dof hd) _ (o + i) (o + j) hpres]
      have hcond : o ≤ o + i ∧ o + i < o + MPair.dof hd ∧ o ≤ o + j ∧
          o + j < o + MPair.dof hd := by omega
      simp only [setBlock, if_pos hcond, Nat.add_sub_cancel_left]
  | .cons hd rest, Er1, o, D, k + 1, s, hk, i, j, hi, hj => by
      simp only [MSubs.get?] at hk
      simp only [MSubs.offset, fillBlocks]
      have hidx : ∀ m : ℕ, o + (MPair.dof hd + MSubs.offset rest k) + m =
          (o + MPair.dof hd) + MSubs.offset rest k + m := by omega
      rw [hidx i, hidx j]
      have hsl : (fun m => Er1 (o + (MPair.dof hd + MSubs.offset rest k) + m)) =
          fun m => Er1 ((o + MPair.dof hd) + MSubs.offset rest k + m) := by
        funext m
        rw [hidx m]
      rw [hsl]
      exact fillBlocks_block rest Er1 (o + MPair.dof hd) _ k s hk i j hi hj

/-- The offset of a sub-manifold plus its size is at most the total size of
the visited sub-manifolds. -/
theorem offset_add_dof_le_dofSum : ∀ (subs : MSubs K) (k : ℕ) (s : MPair K),
    MSubs.get? subs k = some s →
    MSubs.offset subs k + MPair.dof s ≤ MSubs.dofSum subs
  | .nil, k, s, hk => by
      simp only [MSubs.get?] at hk
      exact Option.noConfusion hk
  | .cons hd rest, 0, s, hk => by
      have hs : hd = s := by
        simp only [MSubs.get?] at hk
        exact Option.some.inj hk
      subst hs
      simp only [MSubs.offset, MSubs.dofSum]
      omega
  | .cons hd rest, k + 1, s, hk => by
      simp only [MSubs.get?] at hk
      have := offset_add_dof_le_dofSum rest k s hk
      simp only [MSubs.offset, MSubs.dofSum]
      omega

/-- Blocks of later sub-manifolds start after earlier blocks end. -/
theorem offset_mono : ∀ (subs : MSubs K) (k m : ℕ) (s : MPair K),
    MSubs.get? subs k = some s → k < m →
    MSubs.offset subs k + MPair.dof s ≤ MSubs.offset subs m
  | .nil, k, m, s, hk, _ => by
      simp only [MSubs.get?] at hk
      exact Option.noConfusion hk
  | .cons hd rest, 0, m, s, hk, hlt => by
      have hs : hd = s := by
        simp only [MSubs.get?] at hk
        exact Option.some.inj hk
      subst hs
      obtain ⟨m', rfl⟩ : ∃ m', m = m' + 1 := ⟨m - 1, by omega⟩
      simp only [MSubs.offset]
      omega
  | .cons hd rest, k + 1, m, s, hk, hlt => by
      simp only [MSubs.get?] at hk
      obtain ⟨m', rfl⟩ : ∃ m', m = m' + 1 := ⟨m - 1, by omega⟩
      have := offset_mono rest k m' s hk (by omega)
      simp only [MSubs.offset]
      omega

/-- An index interior to two sub-manifold blocks identifies them. -/
theorem block_index_unique (subs : MSubs K) (k m : ℕ) (s s' : MPair K) (i : ℕ)
    (hk : MSubs.get? subs k = some s) (hm : MSubs.get? subs m = some s')
    (h1 : MSubs.offset subs k ≤ i) (h2 : i < MSubs.offset subs k + MPair.dof s)
    (h3 : MSubs.offset subs m ≤ i) (h4 : i < MSubs.offset subs m + MPair.dof s') :
    k = m := by
  rcases lt_trichotomy k m with h | h | h
  · have := offset_mono subs k m s hk h
    omega
  · exact h
  · have := offset_mono subs m k s' hm h
    omega

mutual
/-- References of the pair agree: both sides of every atomic leaf hold the
same point. -/
def MPair.EqualRefs {K : Type} : MPair K → Prop
  | .atomic _ _ _ p1 p2 => p1 = p2
  | .compound subs _ => MSubs.EqualRefsAll subs

/-- References agree in every listed sub-manifold. -/
def MSubs.EqualRefsAll {K : Type} : MSubs K → Prop
  | .nil => True
  | .cons h t => MPair.EqualRefs h ∧ MSubs.EqualRefsAll t
end

mutual
/-- The retraction law consequence supplied by every proper manifold
implementation: at equal reference points, the Jacobian of the atomic
two-argument expression is the identity on the leaf's tangent dimension. -/
def MPair.LeafIdLaw : MPair K → Prop
  | .atomic d plusJ minusJ p1 p2 =>
      p1 = p2 → ∀ i j, i < d → j < d →
        extractJacobiFn (minusJ (plusJ p1 (fun m => getDerivator d m)) p2) i j =
          if i = j then 1 else 0
  | .compound subs _ => MSubs.LeafIdLawAll subs

/-- The retraction law holds in every listed sub-manifold. -/
def MSubs.LeafIdLawAll : MSubs K → Prop
  | .nil => True
  | .cons h t => MPair.LeafIdLaw h ∧ MSubs.LeafIdLawAll t
end

mutual
/-- At equal references, with every leaf satisfying the retraction law, the
two-argument transform Jacobian has identity entries inside the DOF range. -/
theorem identityNE_of_laws : ∀ t : MPair K, MPair.EqualRefs t → MPair.LeafIdLaw t →
    ∀ i j, i < MPair.dof t → j < MPair.dof t →
    transformReferenceJacobianNE t i j = if i = j then 1 else 0
  | .atomic d plusJ minusJ p1 p2, he, hl, i, j, hi, hj => by
      simp only [MPair.EqualRefs] at he
      simp only [MPair.LeafIdLaw] at hl
      simp only [transformReferenceJacobianNE]
      exact hl he i j hi hj
  | .compound subs vecDof, he, hl, i, j, hi, hj => by
      simp only [MPair.EqualRefs] at he
      simp only [MPair.LeafIdLaw] at hl
      simp only [transformReferenceJacobianNE]
      exact fillBlocksNE_id subs he hl 0 idFun (fun a b => rfl) i j

/-- The two-argument iteration writes identity blocks over an identity
matrix, so the result stays the identity. -/
theorem fillBlocksNE_id : ∀ subs : MSubs K, MSubs.EqualRefsAll subs →
    MSubs.LeafIdLawAll subs → ∀ (o : ℕ) (D : ℕ → ℕ → K),
    (∀ a b, D a b = if a = b then 1 else 0) →
    ∀ i j, fillBlocksNE subs o D i j = if i = j then 1 else 0
  | .nil, _, _, o, D, hD, i, j => by
      simp only [fillBlocksNE]
      exact hD i j
  | .cons s rest, he, hl, o, D, hD, i, j => by
      simp only [MSubs.EqualRefsAll] at he
      simp only [MSubs.LeafIdLawAll] at hl
      simp only [fillBlocksNE]
      refine fillBlocksNE_id rest he.2 hl.2 (o + MPair.dof s) _ ?_ i j
      intro a b
      by_cases hab : o ≤ a ∧ a < o + MPair.dof s ∧ o ≤ b ∧ b < o + MPair.dof s
      · have hsub := identityNE_of_laws s he.1 hl.1 (a - o) (b - o)
          (by omega) (by omega)
        simp only [setBlock, if_pos hab, hsub]
        by_cases hab2 : a = b
        · subst hab2; simp
        · have : ¬(a - o = b - o) := by omega
          simp [hab2, this]
      · simp only [setBlock, if_neg hab]
        exact hD a b
end

/-- Entries of the three-argument transform on the scalar manifold. -/
theorem transformRJ_scalar (a b : K) (Er1 : ℕ → K) (i j : ℕ) :
    transformReferenceJacobian (scalarPair a b) Er1 i j =
      if i < 1 ∧ j = i then 1 else 0 := by
  simp only [scalarPair, transformReferenceJacobian, extractJacobiFn, subJS, addSJ,
    getDerivator_v]

/-- Entries of the two-argument transform on the scalar manifold. -/
theorem transformRJNE_scalar (a b : K) (i j : ℕ) :
    transformReferenceJacobianNE (scalarPair a b) i j =
      if i < 1 ∧ j = i then 1 else 0 := by
  simp only [scalarPair, transformReferenceJacobianNE, extractJacobiFn, subJS, addSJ,
    getDerivator_v]

/-- The scalar manifold has one degree of freedom. -/
theorem scalarPair_dof (a b : K) : MPair.dof (scalarPair a b) = 1 := by
  simp [scalarPair, MPair.dof]

/-- C1: for a non-compound manifold, transformReferenceJacobian(ref1, ref2,
Er1) is exactly the Jacobian extracted from the dual-number expression
ref1 + (Er1 + derivatorBasis(DOF)) - ref2; for the 1-D scalar manifold with
plus x + d and minus x - y the transform Jacobian is the 1 x 1 identity,
regardless of the two reference values, in particular at references 3 and 5. -/
theorem c1_atomic_transform (a0 b0 : K) :
    (∀ (d : ℕ) (plusJ : (ℕ → K) → (ℕ → Jet K) → (ℕ → Jet K))
        (minusJ : (ℕ → Jet K) → (ℕ → K) → (ℕ → Jet K)) (p1 p2 Er1 : ℕ → K),
      transformReferenceJacobian (.atomic d plusJ minusJ p1 p2) Er1 =
        extractJacobiFn (minusJ (plusJ p1 (fun i => addSJ (Er1 i) (getDerivator d i))) p2))
    ∧ transformRJMatNE (scalarPair a0 b0) = 1
    ∧ transformRJMatNE (scalarPair (3 : K) (5 : K)) = 1 := by
  have hscalar : ∀ a b : K, transformRJMatNE (scalarPair a b) = 1 := by
    intro a b
    ext i j
    have hi0 : (i : ℕ) = 0 := by
      have h := i.isLt
      have hd := scalarPair_dof a b
      omega
    have hj0 : (j : ℕ) = 0 := by
      have h := j.isLt
      have hd := scalarPair_dof a b
      omega
    have hij : i = j := Fin.ext (by rw [hi0, hj0])
    subst hij
    simp only [transformRJMatNE, Matrix.of_apply, Matrix.one_apply, transformRJNE_scalar]
    simp [hi0]
  exact ⟨fun d plusJ minusJ p1 p2 Er1 => by simp only [transformReferenceJacobian],
    hscalar a0 b0, hscalar 3 5⟩

/-- C2: for a compound manifold, the transform Jacobian is assembled block
diagonally in declared order with a running tangent offset: the diagonal
block at the k-th sub-manifold's offset equals the recursive transform of
that sub-manifold pair at the correspondingly sliced error vector (the slice
being omitted in the no-error overload), and every off-diagonal block is
exactly zero, in both overloads. -/
theorem c2_block_diagonal (subs : MSubs K) (vecDof : ℕ) (Er1 : ℕ → K) :
    (∀ k s, MSubs.get? subs k = some s → ∀ i j, i < MPair.dof s → j < MPair.dof s →
      transformReferenceJacobian (.compound subs vecDof) Er1
          (MSubs.offset subs k + i) (MSubs.offset subs k + j) =
        transformReferenceJacobian s (fun m => Er1 (MSubs.offset subs k + m)) i j)
    ∧ (∀ k s, MSubs.get? subs k = some s → ∀ i j, i < MPair.dof s → j < MPair.dof s →
      transformReferenceJacobianNE (.compound subs vecDof)
          (MSubs.offset subs k + i) (MSubs.offset subs k + j) =
        transformReferenceJacobianNE s i j)
    ∧ (∀ k k' s s', MSubs.get? subs k = some s → MSubs.get? subs k' = some s' →
      k ≠ k' → ∀ i j, i < MPair.dof s → j < MPair.dof s' →
      transformReferenceJacobian (.compound subs vecDof) Er1
          (MSubs.offset subs k + i) (MSubs.offset subs k' + j) = 0)
    ∧ (∀ k k' s s', MSubs.get? subs k = some s → MSubs.get? subs k' = some s' →
      k ≠ k' → ∀ i j, i < MPair.dof s → j < MPair.dof s' →
      transformReferenceJacobianNE (.compound subs vecDof)
          (MSubs.offset subs k + i) (MSubs.offset subs k' + j) = 0) := by
  have hdiag : ∀ (E : ℕ → K) k s, MSubs.get? subs k = some s →
      ∀ i j, i < MPair.dof s → j < MPair.dof s →
      transformReferenceJacobian (.compound subs vecDof) E
          (MSubs.offset subs k + i) (MSubs.offset subs k + j) =
        transformReferenceJacobian s (fun m => E (MSubs.offset subs k + m)) i j := by
    intro E k s hk i j hi hj
    simp only [transformReferenceJacobian]
    have h := fillBlocks_block subs E 0 idFun k s hk i j hi hj
    simpa using h
  have hoff : ∀ (E : ℕ → K) k k' s s', MSubs.get? subs k = some s →
      MSubs.get? subs k' = some s' → k ≠ k' →
      ∀ i j, i < MPair.dof s → j < MPair.dof s' →
      transformReferenceJacobian (.compound subs vecDof) E
          (MSubs.offset subs k + i) (MSubs.offset subs k' + j) = 0 := by
    intro E k k' s s' hk hk' hne i j hi hj
    simp only [transformReferenceJacobian]
    have hpres : ∀ m s'', MSubs.get? subs m = some s'' →
        ¬(0 + MSubs.offset subs m ≤ MSubs.offset subs k + i ∧
          MSubs.offset subs k + i < 0 + MSubs.offset subs m + MPair.dof s'' ∧
          0 + MSubs.offset subs m ≤ MSubs.offset subs k' + j ∧
          MSubs.offset subs k' + j < 0 + MSubs.offset subs m + MPair.dof s'') := by
      intro m s'' hm hcon
      obtain ⟨h1, h2, h3, h4⟩ := hcon
      rw [Nat.zero_add] at h1 h3
      rw [Nat.zero_add] at h2 h4
      have hkm : k = m := block_index_unique subs k m s s'' (MSubs.offset subs k + i)
        hk hm (Nat.le_add_right _ _) (by omega) h1 h2
      have hk'm : k' = m := block_index_unique subs k' m s' s''
        (MSubs.offset subs k' + j) hk' hm (Nat.le_add_right _ _) (by omega) h3 h4
      exact hne (hkm.trans hk'm.symm)
    rw [fillBlocks_preserve subs E 0 idFun _ _ hpres]
    rcases Nat.lt_or_ge k k' with h | h
    · have := offset_mono subs k k' s hk h
      simp only [idFun]
      rw [if_neg (by omega)]
    · have hlt : k' < k := by omega
      have := offset_mono subs k' k s' hk' hlt
      simp only [idFun]
      rw [if_neg (by omega)]
  refine ⟨hdiag Er1, ?_, hoff Er1, ?_⟩
  · intro k s hk i j hi hj
    rw [← transformRJ_zero (MPair.compound subs vecDof)]
    rw [hdiag (fun _ => 0) k s hk i j hi hj]
    rw [← transformRJ_zero s]
  · intro k k' s s' hk hk' hne i j hi hj
    rw [← transformRJ_zero (MPair.compound subs vecDof)]
    exact hoff (fun _ => 0) k k' s s' hk hk' hne i j hi hj

/-- A concrete compound manifold of two scalar sub-manifolds. -/
def subs2 : MSubs ℚ := .cons (scalarPair 1 3) (.cons (scalarPair 2 4) .nil)

/-- Witness for C2 at a concrete two-component compound manifold. -/
theorem c2_block_diagonal_witness :
    (transformReferenceJacobian (MPair.compound subs2 0) (fun _ => (0 : ℚ))
        (MSubs.offset subs2 1 + 0) (MSubs.offset subs2 1 + 0) =
      transformReferenceJacobian (scalarPair (2 : ℚ) 4)
        (fun m => (fun _ => (0 : ℚ)) (MSubs.offset subs2 1 + m)) 0 0)
    ∧ transformReferenceJacobian (MPair.compound subs2 0) (fun _ => (0 : ℚ))
        (MSubs.offset subs2 0 + 0) (MSubs.offset subs2 1 + 0) = 0 := by
  have h := c2_block_diagonal subs2 0 (fun _ => (0 : ℚ))
  exact ⟨h.1 1 (scalarPair 2 4) rfl 0 0 (by decide) (by decide),
    h.2.2.1 0 1 (scalarPair 1 3) (scalarPair 2 4) rfl rfl (by decide) 0 0
      (by decide) (by decide)⟩

/-- C3: at equal references (and with every atomic leaf satisfying the
retraction law of the external manifold interface), the two-argument
transformReferenceJacobian is the DOF x DOF identity matrix. -/
theorem c3_identity_reference (t : MPair K) (he : MPair.EqualRefs t)
    (hl : MPair.LeafIdLaw t) : transformRJMatNE t = 1 := by
  ext i j
  simp only [transformRJMatNE, Matrix.of_apply, Matrix.one_apply]
  rw [identityNE_of_laws t he hl i j i.isLt j.isLt]
  simp only [Fin.val_inj]

/-- A concrete compound manifold at equal references: one scalar sub-manifold
plus a trailing one-dimensional vector component. -/
def t3 : MPair ℚ := .compound (.cons (scalarPair 2 2) .nil) 1

/-- Witness for C3 at a concrete compound manifold at equal references. -/
theorem c3_identity_reference_witness : transformRJMatNE t3 = 1 := by
  have he : MPair.EqualRefs t3 := by
    simp only [t3, MPair.EqualRefs, MSubs.EqualRefsAll, scalarPair]
    exact ⟨by trivial, trivial⟩
  have hl : MPair.LeafIdLaw t3 := by
    simp only [t3, MPair.LeafIdLaw, MSubs.LeafIdLawAll, scalarPair]
    refine ⟨?_, trivial⟩
    intro hp i j hi hj
    interval_cases i
    interval_cases j
    norm_num [extractJacobiFn, subJS, addSJ, getDerivator_v]
  exact c3_identity_reference t3 he hl

/-- C4: the two-argument overload returns the same matrix as the
three-argument overload evaluated at the zero error vector. -/
theorem c4_no_error_is_zero_error (t : MPair K) :
    transformRJMat t (fun _ => 0) = transformRJMatNE t := by
  have h := transformRJ_zero t
  simp only [transformRJMat, transformRJMatNE, h]

/-- C10: in both overloads, the result starts from the identity, so every
tangent slice not visited by the iteration (the trailing plain-vector
components) keeps its identity diagonal block. -/
theorem c10_unvisited_identity (subs : MSubs K) (vecDof : ℕ) (Er1 : ℕ → K)
    (i j : ℕ) (hi1 : MSubs.dofSum subs ≤ i) (hi2 : i < MSubs.dofSum subs + vecDof)
    (hj1 : MSubs.dofSum subs ≤ j) (hj2 : j < MSubs.dofSum subs + vecDof) :
    transformReferenceJacobian (.compound subs vecDof) Er1 i j =
        (if i = j then (1 : K) else 0)
    ∧ transformReferenceJacobianNE (.compound subs vecDof) i j =
        (if i = j then (1 : K) else 0) := by
  have hcore : ∀ E : ℕ → K,
      transformReferenceJacobian (.compound subs vecDof) E i j =
        if i = j then (1 : K) else 0 := by
    intro E
    simp only [transformReferenceJacobian]
    have hpres : ∀ k s, MSubs.get? subs k = some s →
        ¬(0 + MSubs.offset subs k ≤ i ∧ i < 0 + MSubs.offset subs k + MPair.dof s ∧
          0 + MSubs.offset subs k ≤ j ∧ j < 0 + MSubs.offset subs k + MPair.dof s) := by
      intro k s hk hcon
      obtain ⟨h1, h2, h3, h4⟩ := hcon
      have := offset_add_dof_le_dofSum subs k s hk
      omega
    rw [fillBlocks_preserve subs E 0 idFun i j hpres]
    rfl
  refine ⟨hcore Er1, ?_⟩
  rw [← transformRJ_zero (MPair.compound subs vecDof)]
  exact hcore _

/-- A concrete compound manifold with one scalar sub-manifold and a trailing
two-dimensional vector component. -/
def subsV : MSubs ℚ := .cons (scalarPair 1 3) .nil

/-- Witness for C10 at a concrete compound with a trailing vector slice. -/
theorem c10_unvisited_identity_witness :
    transformReferenceJacobian (MPair.compound subsV 2) (fun _ => (0 : ℚ)) 2 2 =
        (if 2 = 2 then (1 : ℚ) else 0)
    ∧ transformReferenceJacobianNE (MPair.compound subsV 2) 2 2 =
        (if 2 = 2 then (1 : ℚ) else 0) :=
  c10_unvisited_identity subsV 2 (fun _ => 0) 2 2 (by decide) (by decide)
    (by decide) (by decide)

/-- The matrix whose column i is the derivative-component vector of the i-th
entry of the derivator basis. -/
def derivatorMatrix (Size : ℕ) : Matrix (Fin Size) (Fin Size) K :=
  Matrix.of fun j i => (getDerivator (K := K) Size (i : ℕ)).v (j : ℕ)

/-- C6: every component of derivatorBasis(Size) has scalar part zero, and the
matrix whose columns are the derivative-component vectors is the Size x Size
identity; the basis is a pure function of Size alone. -/
theorem c6_derivator_identity (Size : ℕ) :
    (∀ i, (getDerivator (K := K) Size i).a = 0) ∧
      derivatorMatrix (K := K) Size = 1 := by
  refine ⟨getDerivator_a Size, ?_⟩
  ext j i
  simp only [derivatorMatrix, Matrix.of_apply, Matrix.one_apply, getDerivator_v]
  have hi : (i : ℕ) < Size := i.isLt
  by_cases h : j = i
  · subst h
    simp [hi]
  · have hne : ¬((j : ℕ) = (i : ℕ)) := fun hh => h (Fin.ext hh)
    simp [h, hne]

/-- C5: the fixed-size branch of AutoMatrixType is an n x n (double) matrix,
ignoring its column parameter, so below the threshold the declared Jacobian
shape degenerates to n x n instead of the documented LDOF x RDOF; the entry
contract (row j is the derivative vector of element j) holds as such. -/
theorem c5_auto_matrix_shape (result : ℕ → Jet K) :
    autoMatrixShape 100 2 3 = (2, 2) ∧ autoMatrixShape 5 2 3 = (2, 3) ∧
      autoMatrixShape 100 2 3 ≠ autoMatrixShape 5 2 3 ∧
      (∀ (j : Fin 2) (r : Fin 3),
        extractJacobi 2 3 result j r = (result (j : ℕ)).v (r : ℕ)) :=
  ⟨by decide, by decide, by decide, fun j r => rfl⟩

/-- Explicit matrix inverse by the adjugate formula; over a field this agrees
with Mathlib's inverse and models Eigen's numerical inverse(). -/
def matInv {n : ℕ} (A : Matrix (Fin n) (Fin n) K) : Matrix (Fin n) (Fin n) K :=
  (A.det)⁻¹ • A.adjugate

/-- The adjugate formula computes the Mathlib matrix inverse over a field. -/
theorem matInv_eq {n : ℕ} (A : Matrix (Fin n) (Fin n) K) : matInv A = A⁻¹ := by
  rw [Matrix.inv_def, matInv, Ring.inverse_eq_inv]

/-- The inverse of the identity matrix by the adjugate formula. -/
theorem matInv_one {n : ℕ} : matInv (1 : Matrix (Fin n) (Fin n) K) = 1 := by
  rw [matInv_eq]
  exact Matrix.inv_eq_right_inv (by rw [Matrix.mul_one])

/-- Eigenvalues clamped from below at eps, as in the loop of
assurePositiveDefinite. -/
def clampEigen {n : ℕ} (eps : K) (sV : Fin n → K) : Fin n → K :=
  fun i => if sV i < eps then eps else sV i

/-- assurePositiveDefinite of ADEKFUtils.h.  Modelled from the spec: the
external SelfAdjointEigenSolver output (eigenvector matrix V and eigenvalue
vector sV of the input M) is passed as arguments.  If no eigenvalue lies
below eps the matrix is returned untouched, otherwise it is reconstructed
from the eigenvectors and the clamped eigenvalues. -/
def assurePositiveDefinite {n : ℕ} (M V : Matrix (Fin n) (Fin n) K)
    (sV : Fin n → K) (eps : K) : Matrix (Fin n) (Fin n) K :=
  if ∀ i, ¬sV i < eps then M
  else V * Matrix.diagonal (clampEigen eps sV) * matInv V

/-- The Schur complement of the leading pivot, as produced by one step of an
LDLT decomposition without pivoting. -/
def schurComp (n : ℕ) (M : Matrix (Fin (n + 1)) (Fin (n + 1)) K) :
    Matrix (Fin n) (Fin n) K :=
  Matrix.of fun i j => M i.succ j.succ - M i.succ 0 * M 0 j.succ / M 0 0

/-- Modelled from the spec: the pivots of the Cholesky-family (LDLT)
decomposition of the external matrix library, with a failed decomposition
(zero pivot) reported as none. -/
def ldltPivots : (n : ℕ) → Matrix (Fin n) (Fin n) K → Option (List K)
  | 0, _ => some []
  | n + 1, M =>
      if M 0 0 = 0 then none
      else (ldltPivots n (schurComp n M)).map (fun ps => M 0 0 :: ps)

/-- isPositiveDefinite of ADEKFUtils.h: the decomposition must succeed and
every pivot must be strictly positive; a failed decomposition yields false. -/
def isPositiveDefinite (n : ℕ) (M : Matrix (Fin n) (Fin n) K) : Bool :=
  match ldltPivots n M with
  | none => false
  | some ps => ps.all fun p => decide (0 < p)

/-- Positive definiteness as a quadratic-form statement. -/
def PosDefQuad (n : ℕ) (M : Matrix (Fin n) (Fin n) K) : Prop :=
  ∀ x : Fin n → K, x ≠ 0 → 0 < Matrix.dotProduct x (M.mulVec x)

/-- Multiplication by an orthogonal matrix preserves nonzeroness. -/
theorem mulVec_ne_zero_of_orth {n : ℕ} (V : Matrix (Fin n) (Fin n) K)
    (hV : V * Vᵀ = 1) (x : Fin n → K) (hx : x ≠ 0) : V.mulVec x ≠ 0 := by
  intro h0
  apply hx
  have hVt : Vᵀ * V = 1 := Matrix.mul_eq_one_comm.mp hV
  have : Vᵀ.mulVec (V.mulVec x) = 0 := by rw [h0, Matrix.mulVec_zero]
  rwa [Matrix.mulVec_mulVec, hVt, Matrix.one_mulVec] at this

/-- Every eigenvalue of an orthogonal conjugate of a diagonal matrix is one
of the diagonal entries. -/
theorem eigval_mem_of_conj {n : ℕ} (V : Matrix (Fin n) (Fin n) K)
    (lam : Fin n → K) (hV : V * Vᵀ = 1) (μ : K) (x : Fin n → K) (hx : x ≠ 0)
    (heig : (V * Matrix.diagonal lam * Vᵀ).mulVec x = μ • x) : ∃ i, lam i = μ := by
  have hVt : Vᵀ * V = 1 := Matrix.mul_eq_one_comm.mp hV
  set w := Vᵀ.mulVec x with hw
  have hw0 : w ≠ 0 := by
    have hVt' : Vᵀ * (Vᵀ)ᵀ = 1 := by rwa [Matrix.transpose_transpose]
    exact mulVec_ne_zero_of_orth Vᵀ hVt' x hx
  have hDw : (Matrix.diagonal lam).mulVec w = μ • w := by
    have h1 : Vᵀ.mulVec ((V * Matrix.diagonal lam * Vᵀ).mulVec x) =
        Vᵀ.mulVec (μ • x) := by rw [heig]
    rw [Matrix.mulVec_mulVec, Matrix.mulVec_smul] at h1
    have h2 : Vᵀ * (V * Matrix.diagonal lam * Vᵀ) = Matrix.diagonal lam * Vᵀ := by
      rw [show V * Matrix.diagonal lam * Vᵀ = V * (Matrix.diagonal lam * Vᵀ) from by
        rw [Matrix.mul_assoc], ← Matrix.mul_assoc, hVt, Matrix.one_mul]
    rw [h2, ← Matrix.mulVec_mulVec] at h1
    exact h1
  obtain ⟨i, hi⟩ := Function.ne_iff.mp hw0
  refine ⟨i, ?_⟩
  have := congrFun hDw i
  rw [Matrix.mulVec_diagonal] at this
  have hsmul : (μ • w) i = μ * w i := rfl
  rw [hsmul] at this
  have hwi : w i ≠ 0 := by simpa using hi
  exact mul_right_cancel₀ hwi this

/-- If every diagonal entry is at least eps, every eigenvalue of the
orthogonal conjugate is at least eps. -/
theorem eigval_ge_of_conj {n : ℕ} (V : Matrix (Fin n) (Fin n) K)
    (lam : Fin n → K) (eps : K) (hV : V * Vᵀ = 1) (hlam : ∀ i, eps ≤ lam i)
    (μ : K) (x : Fin n → K) (hx : x ≠ 0)
    (heig : (V * Matrix.diagonal lam * Vᵀ).mulVec x = μ • x) : eps ≤ μ := by
  obtain ⟨i, hi⟩ := eigval_mem_of_conj V lam hV μ x hx heig
  exact hi ▸ hlam i

/-- Entry symmetry from matrix symmetry. -/
theorem entry_symm {n : ℕ} {M : Matrix (Fin n) (Fin n) K} (hsym : Mᵀ = M)
    (a b : Fin n) : M a b = M b a :=
  calc M a b = Mᵀ b a := (Matrix.transpose_apply M b a).symm
  _ = M b a := by rw [hsym]

/-- The quadratic form at the first standard basis vector is the pivot. -/
theorem qform_single {n : ℕ} (M : Matrix (Fin (n + 1)) (Fin (n + 1)) K) :
    Matrix.dotProduct (Pi.single (0 : Fin (n + 1)) (1 : K))
      (M.mulVec (Pi.single 0 1)) = M 0 0 := by
  simp only [Matrix.dotProduct, Matrix.mulVec, Pi.single_apply, mul_ite, mul_one,
    mul_zero, ite_mul, one_mul, zero_mul, Finset.sum_ite_eq', Finset.mem_univ,
    if_true]

/-- The leading pivot of a positive definite matrix is positive. -/
theorem pivot_pos {n : ℕ} (M : Matrix (Fin (n + 1)) (Fin (n + 1)) K)
    (hpd : PosDefQuad (n + 1) M) : 0 < M 0 0 := by
  have hx : (Pi.single (0 : Fin (n + 1)) (1 : K) : Fin (n + 1) → K) ≠ 0 := by
    intro h
    have h0 := congrFun h 0
    simp [Pi.single_apply] at h0
  have h := hpd _ hx
  rwa [qform_single] at h

/-- The Schur complement of a symmetric matrix is symmetric. -/
theorem schurComp_symm {n : ℕ} (M : Matrix (Fin (n + 1)) (Fin (n + 1)) K)
    (hsym : Mᵀ = M) : (schurComp n M)ᵀ = schurComp n M := by
  ext i j
  simp only [Matrix.transpose_apply, schurComp, Matrix.of_apply]
  rw [entry_symm hsym j.succ i.succ, entry_symm hsym j.succ 0,
    entry_symm hsym 0 i.succ]
  ring

/-- The Schur complement of a symmetric positive definite matrix is positive
definite. -/
theorem schurComp_posdef {n : ℕ} (M : Matrix (Fin (n + 1)) (Fin (n + 1)) K)
    (hsym : Mᵀ = M) (hpd : PosDefQuad (n + 1) M) :
    PosDefQuad n (schurComp n M) := by
  intro y hy
  have hd : 0 < M 0 0 := pivot_pos M hpd
  have hdne : M 0 0 ≠ 0 := ne_of_gt hd
  have hxne :
      (Fin.cons (-(∑ j : Fin n, M 0 j.succ * y j) / M 0 0) y : Fin (n + 1) → K) ≠ 0 := by
    obtain ⟨i, hi⟩ := Function.ne_iff.mp hy
    intro h
    apply hi
    have h2 := congrFun h i.succ
    rw [Fin.cons_succ] at h2
    simpa using h2
  have hmv : ∀ i : Fin (n + 1),
      M.mulVec (Fin.cons (-(∑ j : Fin n, M 0 j.succ * y j) / M 0 0) y) i =
        M i 0 * (-(∑ j : Fin n, M 0 j.succ * y j) / M 0 0) +
          ∑ j : Fin n, M i j.succ * y j := by
    intro i
    simp only [Matrix.mulVec, Matrix.dotProduct]
    rw [Fin.sum_univ_succ, Fin.cons_zero]
    congr 1
  have hA : Matrix.dotProduct
      (Fin.cons (-(∑ j : Fin n, M 0 j.succ * y j) / M 0 0) y)
      (M.mulVec (Fin.cons (-(∑ j : Fin n, M 0 j.succ * y j) / M 0 0) y)) =
      (∑ i : Fin n, y i * ∑ j : Fin n, M i.succ j.succ * y j) -
        (∑ j : Fin n, M 0 j.succ * y j) * (∑ j : Fin n, M 0 j.succ * y j) / M 0 0 := by
    simp only [Matrix.dotProduct]
    rw [Fin.sum_univ_succ, Fin.cons_zero, hmv 0]
    rw [show (∑ i : Fin n,
        (Fin.cons (-(∑ j : Fin n, M 0 j.succ * y j) / M 0 0) y : Fin (n + 1) → K) i.succ *
          M.mulVec (Fin.cons (-(∑ j : Fin n, M 0 j.succ * y j) / M 0 0) y) i.succ) =
        ∑ i : Fin n,
          (y i * M i.succ 0 * (-(∑ j : Fin n, M 0 j.succ * y j) / M 0 0) +
            y i * ∑ j : Fin n, M i.succ j.succ * y j) from
      Finset.sum_congr rfl fun i _ => by rw [Fin.cons_succ, hmv i.succ]; ring]
    rw [Finset.sum_add_distrib]
    rw [show (∑ i : Fin n,
        y i * M i.succ 0 * (-(∑ j : Fin n, M 0 j.succ * y j) / M 0 0)) =
        (∑ i : Fin n, M 0 i.succ * y i) *
          (-(∑ j : Fin n, M 0 j.succ * y j) / M 0 0) from by
      rw [Finset.sum_mul]
      exact Finset.sum_congr rfl fun i _ => by
        rw [entry_symm hsym i.succ 0]; ring]
    field_simp
    ring
  have hB : Matrix.dotProduct y ((schurComp n M).mulVec y) =
      (∑ i : Fin n, y i * ∑ j : Fin n, M i.succ j.succ * y j) -
        (∑ j : Fin n, M 0 j.succ * y j) * (∑ j : Fin n, M 0 j.succ * y j) / M 0 0 := by
    have hmvS : ∀ i : Fin n, ((schurComp n M).mulVec y) i =
        (∑ j : Fin n, M i.succ j.succ * y j) -
          M i.succ 0 / M 0 0 * ∑ j : Fin n, M 0 j.succ * y j := by
      intro i
      simp only [Matrix.mulVec, Matrix.dotProduct, schurComp, Matrix.of_apply]
      rw [show (∑ j : Fin n, (M i.succ j.succ - M i.succ 0 * M 0 j.succ / M 0 0) * y j) =
          ∑ j : Fin n, (M i.succ j.succ * y j -
            M i.succ 0 / M 0 0 * (M 0 j.succ * y j)) from
        Finset.sum_congr rfl fun j _ => by ring]
      rw [Finset.sum_sub_distrib, ← Finset.mul_sum]
    simp only [Matrix.dotProduct]
    rw [show (∑ i : Fin n, y i * ((schurComp n M).mulVec y) i) =
        ∑ i : Fin n, (y i * ∑ j : Fin n, M i.succ j.succ * y j -
          y i * M i.succ 0 * (∑ j : Fin n, M 0 j.succ * y j) / M 0 0) from
      Finset.sum_congr rfl fun i _ => by rw [hmvS i]; ring]
    rw [Finset.sum_sub_distrib]
    rw [show (∑ i : Fin n,
        y i * M i.succ 0 * (∑ j : Fin n, M 0 j.succ * y j) / M 0 0) =
        (∑ i : Fin n, M 0 i.succ * y i) * (∑ j : Fin n, M 0 j.succ * y j) / M 0 0 from by
      rw [← Finset.sum_div]
      congr 1
      rw [Finset.sum_mul]
      exact Finset.sum_congr rfl fun i _ => by
        rw [entry_symm hsym i.succ 0]; ring]
  have hq := hpd _ hxne
  rw [hA] at hq
  rw [hB]
  exact hq

/-- An LDLT decomposition of a symmetric positive definite matrix succeeds
and all its pivots are positive. -/
theorem ldltPivots_posdef : ∀ (n : ℕ) (M : Matrix (Fin n) (Fin n) K),
    Mᵀ = M → PosDefQuad n M →
    ∃ ps, ldltPivots n M = some ps ∧ ∀ p ∈ ps, 0 < p := by
  intro n
  induction n with
  | zero =>
      intro M _ _
      exact ⟨[], rfl, by simp⟩
  | succ n ih =>
      intro M hsym hpd
      have hd : 0 < M 0 0 := pivot_pos M hpd
      obtain ⟨ps, hps, hpos⟩ :=
        ih (schurComp n M) (schurComp_symm M hsym) (schurComp_posdef M hsym hpd)
      refine ⟨M 0 0 :: ps, ?_, ?_⟩
      · have hstep : ldltPivots (n + 1) M =
            (ldltPivots n (schurComp n M)).map (fun ps => M 0 0 :: ps) := by
          simp only [ldltPivots, if_neg (ne_of_gt hd)]
        rw [hstep, hps]
        rfl
      · intro p hp
        rcases List.mem_cons.mp hp with h | h
        · rw [h]; exact hd
        · exact hpos p h

/-- Positive pivots make isPositiveDefinite return true. -/
theorem isPositiveDefinite_of_pivots {n : ℕ} (M : Matrix (Fin n) (Fin n) K)
    (ps : List K) (h : ldltPivots n M = some ps) (hpos : ∀ p ∈ ps, 0 < p) :
    isPositiveDefinite n M = true := by
  simp only [isPositiveDefinite, h, List.all_eq_true]
  intro p hp
  exact decide_eq_true (hpos p hp)

/-- An orthogonal conjugate of a diagonal matrix is symmetric. -/
theorem conj_symm {n : ℕ} (V : Matrix (Fin n) (Fin n) K) (lam : Fin n → K) :
    (V * Matrix.diagonal lam * Vᵀ)ᵀ = V * Matrix.diagonal lam * Vᵀ := by
  rw [Matrix.transpose_mul, Matrix.transpose_mul, Matrix.transpose_transpose,
    Matrix.diagonal_transpose, Matrix.mul_assoc]

/-- An orthogonal conjugate of a diagonal matrix with entries bounded below
by a positive eps is positive definite. -/
theorem qform_conj_pos {n : ℕ} (V : Matrix (Fin n) (Fin n) K) (lam : Fin n → K)
    (eps : K) (hV : V * Vᵀ = 1) (hlam : ∀ i, eps ≤ lam i) (heps : 0 < eps) :
    PosDefQuad n (V * Matrix.diagonal lam * Vᵀ) := by
  intro x hx
  have hw : Vᵀ.mulVec x ≠ 0 :=
    mulVec_ne_zero_of_orth Vᵀ
      (by rw [Matrix.transpose_transpose]; exact Matrix.mul_eq_one_comm.mp hV) x hx
  have hform : Matrix.dotProduct x ((V * Matrix.diagonal lam * Vᵀ).mulVec x) =
      Matrix.dotProduct (Vᵀ.mulVec x)
        ((Matrix.diagonal lam).mulVec (Vᵀ.mulVec x)) := by
    rw [← Matrix.mulVec_mulVec, ← Matrix.mulVec_mulVec]
    rw [Matrix.dotProduct_mulVec, Matrix.mulVec_transpose]
  rw [hform]
  obtain ⟨i0, hi0⟩ := Function.ne_iff.mp hw
  have hi0' : Vᵀ.mulVec x i0 ≠ 0 := by simpa using hi0
  have hterm : ∀ i : Fin n,
      0 ≤ Vᵀ.mulVec x i * ((Matrix.diagonal lam).mulVec (Vᵀ.mulVec x)) i := by
    intro i
    rw [Matrix.mulVec_diagonal]
    have h1 : 0 ≤ lam i := le_trans (le_of_lt heps) (hlam i)
    calc (0 : K) ≤ lam i * (Vᵀ.mulVec x i * Vᵀ.mulVec x i) :=
          mul_nonneg h1 (mul_self_nonneg _)
    _ = Vᵀ.mulVec x i * (lam i * Vᵀ.mulVec x i) := by ring
  have hpos : 0 < Vᵀ.mulVec x i0 *
      ((Matrix.diagonal lam).mulVec (Vᵀ.mulVec x)) i0 := by
    rw [Matrix.mulVec_diagonal]
    have h1 : 0 < lam i0 := lt_of_lt_of_le heps (hlam i0)
    have h2 : 0 < Vᵀ.mulVec x i0 * Vᵀ.mulVec x i0 := mul_self_pos.mpr hi0'
    calc (0 : K) < lam i0 * (Vᵀ.mulVec x i0 * Vᵀ.mulVec x i0) := mul_pos h1 h2
    _ = Vᵀ.mulVec x i0 * (lam i0 * Vᵀ.mulVec x i0) := by ring
  simp only [Matrix.dotProduct]
  exact Finset.sum_pos' (fun i _ => hterm i) ⟨i0, Finset.mem_univ i0, hpos⟩

/-- Clamped eigenvalues are bounded below by eps. -/
theorem clampEigen_ge {n : ℕ} (eps : K) (sV : Fin n → K) :
    ∀ i, eps ≤ clampEigen eps sV i := by
  intro i
  by_cases h : sV i < eps
  · simp [clampEigen, h]
  · simp only [clampEigen, if_neg h]
    exact le_of_not_lt h

/-- C7: for a symmetric matrix with at least one eigenvalue strictly below a
positive eps, assurePositiveDefinite reconstructs the matrix from the
eigenvectors and the clamped eigenvalues, and the result is symmetric
positive definite, every eigenvalue of the result is at least eps, and
isPositiveDefinite then returns true. -/
theorem c7_assure_postcondition {n : ℕ} (M V : Matrix (Fin n) (Fin n) K)
    (sV : Fin n → K) (eps : K) (hV : V * Vᵀ = 1)
    (hM : M = V * Matrix.diagonal sV * matInv V)
    (hsome : ∃ i, sV i < eps) (heps : 0 < eps) :
    assurePositiveDefinite M V sV eps =
        V * Matrix.diagonal (clampEigen eps sV) * matInv V
    ∧ (assurePositiveDefinite M V sV eps)ᵀ = assurePositiveDefinite M V sV eps
    ∧ PosDefQuad n (assurePositiveDefinite M V sV eps)
    ∧ (∀ (μ : K) (x : Fin n → K), x ≠ 0 →
        (assurePositiveDefinite M V sV eps).mulVec x = μ • x → eps ≤ μ)
    ∧ isPositiveDefinite n (assurePositiveDefinite M V sV eps) = true := by
  have hcond : ¬∀ i, ¬sV i < eps := by
    obtain ⟨i, hi⟩ := hsome
    exact fun h => h i hi
  have hVt : matInv V = Vᵀ := by
    rw [matInv_eq]
    exact Matrix.inv_eq_right_inv hV
  have h1 : assurePositiveDefinite M V sV eps =
      V * Matrix.diagonal (clampEigen eps sV) * matInv V := by
    simp only [assurePositiveDefinite, if_neg hcond]
  have h1t : assurePositiveDefinite M V sV eps =
      V * Matrix.diagonal (clampEigen eps sV) * Vᵀ := by rw [h1, hVt]
  refine ⟨h1, ?_, ?_, ?_, ?_⟩
  · rw [h1t]
    exact conj_symm V (clampEigen eps sV)
  · rw [h1t]
    exact qform_conj_pos V _ eps hV (clampEigen_ge eps sV) heps
  · intro μ x hx heig
    rw [h1t] at heig
    exact eigval_ge_of_conj V _ eps hV (clampEigen_ge eps sV) μ x hx heig
  · obtain ⟨ps, hps, hpos⟩ := ldltPivots_posdef n (assurePositiveDefinite M V sV eps)
      (by rw [h1t]; exact conj_symm V _)
      (by rw [h1t]; exact qform_conj_pos V _ eps hV (clampEigen_ge eps sV) heps)
    exact isPositiveDefinite_of_pivots _ ps hps hpos

/-- A one-dimensional matrix with the single eigenvalue minus one. -/
def wM : Matrix (Fin 1) (Fin 1) ℚ := Matrix.diagonal (fun _ => -1)

/-- The eigenvalue vector of wM. -/
def wSV : Fin 1 → ℚ := fun _ => -1

/-- Witness for C7 at a concrete one-dimensional matrix. -/
theorem c7_assure_postcondition_witness :
    assurePositiveDefinite wM (1 : Matrix (Fin 1) (Fin 1) ℚ) wSV 1 =
        1 * Matrix.diagonal (clampEigen 1 wSV) * matInv 1
    ∧ (assurePositiveDefinite wM 1 wSV 1)ᵀ = assurePositiveDefinite wM 1 wSV 1
    ∧ PosDefQuad 1 (assurePositiveDefinite wM 1 wSV 1)
    ∧ (∀ (μ : ℚ) (x : Fin 1 → ℚ), x ≠ 0 →
        (assurePositiveDefinite wM 1 wSV 1).mulVec x = μ • x → 1 ≤ μ)
    ∧ isPositiveDefinite 1 (assurePositiveDefinite wM 1 wSV 1) = true := by
  have hV : (1 : Matrix (Fin 1) (Fin 1) ℚ) * (1 : Matrix (Fin 1) (Fin 1) ℚ)ᵀ = 1 := by
    rw [Matrix.transpose_one, Matrix.mul_one]
  have hM : wM = 1 * Matrix.diagonal wSV * matInv 1 := by
    rw [matInv_one, Matrix.one_mul, Matrix.mul_one]
    rfl
  exact c7_assure_postcondition wM 1 wSV 1 hV hM ⟨0, by norm_num [wSV]⟩ (by norm_num)

/-- C8: assurePositiveDefinite is idempotent, a second application with the
eigendecomposition of the first result returning that result unchanged; and
when no eigenvalue lies below eps the matrix is returned untouched. -/
theorem c8_idempotent {n : ℕ} (M V V₂ : Matrix (Fin n) (Fin n) K)
    (sV sV₂ : Fin n → K) (eps : K) (hV : V * Vᵀ = 1)
    (hM : M = V * Matrix.diagonal sV * matInv V) (hV₂ : V₂ * V₂ᵀ = 1)
    (hM₂ : assurePositiveDefinite M V sV eps =
      V₂ * Matrix.diagonal sV₂ * matInv V₂) :
    assurePositiveDefinite (assurePositiveDefinite M V sV eps) V₂ sV₂ eps =
        assurePositiveDefinite M V sV eps
    ∧ ((∀ i, eps ≤ sV i) → assurePositiveDefinite M V sV eps = M) := by
  have hVt : matInv V = Vᵀ := by
    rw [matInv_eq]
    exact Matrix.inv_eq_right_inv hV
  have hVt₂ : matInv V₂ = V₂ᵀ := by
    rw [matInv_eq]
    exact Matrix.inv_eq_right_inv hV₂
  constructor
  · have hform : ∃ lam : Fin n → K, (∀ i, eps ≤ lam i) ∧
        assurePositiveDefinite M V sV eps = V * Matrix.diagonal lam * Vᵀ := by
      by_cases hc : ∀ i, ¬sV i < eps
      · refine ⟨sV, fun i => le_of_not_lt (hc i), ?_⟩
        simp only [assurePositiveDefinite, if_pos hc]
        rw [hM, hVt]
      · refine ⟨clampEigen eps sV, clampEigen_ge eps sV, ?_⟩
        simp only [assurePositiveDefinite, if_neg hc]
        rw [hVt]
    obtain ⟨lam, hlam, hMform⟩ := hform
    have hge : ∀ i, eps ≤ sV₂ i := by
      intro i
      have hx : V₂.mulVec (Pi.single i 1 : Fin n → K) ≠ 0 := by
        apply mulVec_ne_zero_of_orth V₂ hV₂
        intro h
        have h0 := congrFun h i
        simp [Pi.single_apply] at h0
      have hVtV : V₂ᵀ * V₂ = 1 := Matrix.mul_eq_one_comm.mp hV₂
      have hmm : V₂ * Matrix.diagonal sV₂ * V₂ᵀ * V₂ = V₂ * Matrix.diagonal sV₂ := by
        rw [Matrix.mul_assoc, hVtV, Matrix.mul_one]
      have hdiag_e : (Matrix.diagonal sV₂).mulVec (Pi.single i 1 : Fin n → K) =
          sV₂ i • (Pi.single i 1 : Fin n → K) := by
        funext j
        rw [Matrix.mulVec_diagonal]
        by_cases h : j = i
        · subst h
          simp
        · simp [Pi.single_apply, h]
      have heig : (assurePositiveDefinite M V sV eps).mulVec
          (V₂.mulVec (Pi.single i 1 : Fin n → K)) =
          sV₂ i • V₂.mulVec (Pi.single i 1 : Fin n → K) := by
        rw [hM₂, hVt₂, Matrix.mulVec_mulVec, hmm, ← Matrix.mulVec_mulVec,
          hdiag_e, Matrix.mulVec_smul]
      rw [hMform] at heig
      exact eigval_ge_of_conj V lam eps hV hlam (sV₂ i) _ hx heig
    rw [assurePositiveDefinite, if_pos (fun i => not_lt.mpr (hge i))]
  · intro h
    rw [assurePositiveDefinite, if_pos (fun i => not_lt.mpr (h i))]

/-- The eigenvalue vector of the regularized form of wM. -/
def wSV1 : Fin 1 → ℚ := fun _ => 1

/-- A one-dimensional matrix that is already positive definite. -/
def wM2 : Matrix (Fin 1) (Fin 1) ℚ := Matrix.diagonal (fun _ => 2)

/-- The eigenvalue vector of wM2. -/
def wSV2 : Fin 1 → ℚ := fun _ => 2

/-- Witness for C8 at concrete one-dimensional matrices: idempotence on a
regularized matrix and untouched return on an already definite one. -/
theorem c8_idempotent_witness :
    assurePositiveDefinite (assurePositiveDefinite wM 1 wSV 1) 1 wSV1 1 =
        assurePositiveDefinite wM 1 wSV 1
    ∧ assurePositiveDefinite wM2 1 wSV2 1 = wM2 := by
  have hV : (1 : Matrix (Fin 1) (Fin 1) ℚ) * (1 : Matrix (Fin 1) (Fin 1) ℚ)ᵀ = 1 := by
    rw [Matrix.transpose_one, Matrix.mul_one]
  have hM : wM = 1 * Matrix.diagonal wSV * matInv 1 := by
    rw [matInv_one, Matrix.one_mul, Matrix.mul_one]
    rfl
  have hcond : ¬∀ i : Fin 1, ¬wSV i < 1 := by
    intro h
    exact h 0 (by norm_num [wSV])
  have hclamp : clampEigen (1 : ℚ) wSV = wSV1 := by
    funext i
    norm_num [clampEigen, wSV, wSV1]
  have hM₂ : assurePositiveDefinite wM 1 wSV 1 =
      1 * Matrix.diagonal wSV1 * matInv 1 := by
    rw [assurePositiveDefinite, if_neg hcond, hclamp]
  have hM' : wM2 = 1 * Matrix.diagonal wSV2 * matInv 1 := by
    rw [matInv_one, Matrix.one_mul, Matrix.mul_one]
    rfl
  have hcond' : ∀ i : Fin 1, ¬wSV2 i < 1 := by
    intro i
    norm_num [wSV2]
  have hM₂' : assurePositiveDefinite wM2 1 wSV2 1 =
      1 * Matrix.diagonal wSV2 * matInv 1 := by
    rw [assurePositiveDefinite, if_pos hcond']
    exact hM'
  exact ⟨(c8_idempotent wM 1 1 wSV wSV1 1 hV hM hV hM₂).1,
    (c8_idempotent wM2 1 1 wSV2 wSV2 1 hV hM' hV hM₂').2
      (fun i => by norm_num [wSV2])⟩

/-- C9: isPositiveDefinite returns true exactly when the LDLT decomposition
succeeds with all pivots strictly positive; a failed decomposition is
absorbed into the return value false. -/
theorem c9_ldlt_structure {n : ℕ} (M : Matrix (Fin n) (Fin n) K) :
    (isPositiveDefinite n M = true ↔
      ∃ ps, ldltPivots n M = some ps ∧ ∀ p ∈ ps, 0 < p)
    ∧ (ldltPivots n M = none → isPositiveDefinite n M = false) := by
  constructor
  · constructor
    · intro h
      cases hps : ldltPivots n M with
      | none =>
          simp only [isPositiveDefinite, hps] at h
          exact Bool.noConfusion h
      | some ps =>
          refine ⟨ps, rfl, fun p hp => ?_⟩
          simp only [isPositiveDefinite, hps, List.all_eq_true] at h
          exact of_decide_eq_true (h p hp)
    · rintro ⟨ps, hps, hpos⟩
      simp only [isPositiveDefinite, hps, List.all_eq_true]
      intro p hp
      exact decide_eq_true (hpos p hp)
  · intro h
    simp only [isPositiveDefinite, h]

/-- Witness for C9 at a concrete one-dimensional matrix. -/
theorem c9_ldlt_structure_witness :
    (isPositiveDefinite 1 wM2 = true ↔
      ∃ ps, ldltPivots 1 wM2 = some ps ∧ ∀ p ∈ ps, 0 < p)
    ∧ (ldltPivots 1 wM2 = none → isPositiveDefinite 1 wM2 = false) :=
  c9_ldlt_structure wM2

end Adekf
